import Mathlib

/-!
# Verification of `type-safe-state-js` (protoman92/type-safe-state-js)

Shallow embedding of the repository's state-tree data structure and its
operations, translated from the TypeScript sources:

* `src/state+main.ts`     — the `Impl` node class and its `Builder`
* `src/state+inspect.ts`  — `hasValues`, `hasSubstate`, `isEmpty`, `flatten`,
                            `createSingleBranches`, …
* `src/state+modify.ts`   — `updatingValue`, `removingValue`, `copyingValue`,
                            `movingValue`, `updatingSubstate`, …
* `src/state+utility.ts`  — `empty`, `fromState`, `fromKeyValue`
* the file defining `valueAtNode` / `substateAtNode` / `mappingValue`
  (`Impl.prototype._valueAtNode`, `_substateAtNode`, `mappingValue`)
* the file defining `Impl.prototype.equals`

Modelling conventions:

* A JavaScript object used as a string-keyed map (`JSObject<T>`) is modelled
  as an association list `AList V = List (String × V)` in insertion order,
  which is exactly the enumeration order of `Object.keys` / `Objects.entries`.
  Property assignment `obj[k] = v` updates the existing slot in place if the
  key is present and appends otherwise (`alSet`); `removeValue` /
  `removeSubState` filter the key out keeping the order of the other entries
  (`alRemove`).
* The `Try` optional-with-reason type from `javascriptutilities` is modelled
  as `Option`: the claims under study depend only on success/failure, never
  on the error message carried by a failure.
* Node values are a type parameter `V`; `null`/`undefined` leaf slots cannot
  be produced by the modelled operations (`updatingValue` removes the key
  instead of storing a nullish value), so the maps store `V` directly and a
  nullable argument is an `Option V`.
* The substate separator is the default `"."` throughout; every constructor
  reachable in the claims (`empty`, `fromState`, `fromKeyValue`, the cloning
  spine of the update operations) installs or inherits this default.
* Dotted paths: the source splits a path string on the separator
  (`path.split(separator)`) and recurses on the joined remainder; re-joining
  and re-splitting is lossless because the segments produced by a split never
  contain the separator.  The structural recursion is therefore defined on
  the segment list (`…Segs` functions), and the string-level entry points
  (named exactly as in the source) split once with `String.splitOn "."`,
  which agrees with JavaScript's `String.prototype.split` for the one-char
  separator `"."`.
-/

namespace TypeSafeState

/-- A JavaScript string-keyed object, in property insertion order. -/
abbrev AList (V : Type) := List (String × V)

/-- Property read `m[k]`: the value stored at key `k`, if present. -/
def alGet {V : Type} : AList V → String → Option V
  | [], _ => none
  | (k', v) :: rest, k => if k' = k then some v else alGet rest k

/-- Property write `m[k] = v`: replace in place if the key exists, append
otherwise (JavaScript objects keep the original slot position on update). -/
def alSet {V : Type} : AList V → String → V → AList V
  | [], k, v => [(k, v)]
  | (k', v') :: rest, k, v =>
    if k' = k then (k', v) :: rest else (k', v') :: alSet rest k v

/-- Key removal as done by `removeValue` / `removeSubState`:
`Objects.entries(old).filter(v => v[0] !== key)` rebuilt into an object. -/
def alRemove {V : Type} : AList V → String → AList V
  | [], _ => []
  | (k', v') :: rest, k =>
    if k' = k then alRemove rest k else (k', v') :: alRemove rest k

/-- A state node (`Impl<T>` in `state+main.ts`): a map of own leaf values
and a map of named child nodes.  The separator field is fixed to the
default `"."` (see the module docstring). -/
inductive StateM (V : Type) : Type where
  | mk (values : AList V) (substate : List (String × StateM V)) : StateM V

/-- The `values` accessor (the getter returns `Object.assign({}, _values)`,
a copy with the same contents; content-wise it is `_values`). -/
def StateM.values {V : Type} : StateM V → AList V
  | ⟨vs, _⟩ => vs

/-- The `substate` accessor. -/
def StateM.substate {V : Type} : StateM V → List (String × StateM V)
  | ⟨_, ss⟩ => ss

@[simp] theorem StateM.values_mk {V : Type} (vs : AList V) (ss) :
    StateM.values ⟨vs, ss⟩ = vs := rfl

@[simp] theorem StateM.substate_mk {V : Type} (vs : AList V) (ss) :
    StateM.substate ⟨vs, ss⟩ = ss := rfl

theorem StateM.eq_mk {V : Type} : ∀ t : StateM V, t = ⟨t.values, t.substate⟩
  | ⟨_, _⟩ => rfl

/-- `empty()` (`state+utility.ts`): `builder().build()`, a node with empty
values, empty substate and the default separator. -/
def emptyState {V : Type} : StateM V := ⟨[], []⟩

/-- `Impl.prototype.hasValues` (`state+inspect.ts`):
`Object.keys(this._values).length > 0`. -/
def hasValues {V : Type} (t : StateM V) : Bool :=
  t.values.length > 0

/-- `Impl.prototype.hasSubstate` (`state+inspect.ts`):
`Object.keys(this._substate).length > 0`. -/
def hasSubstate {V : Type} (t : StateM V) : Bool :=
  t.substate.length > 0

/-- `Impl.prototype.isEmpty` (`state+inspect.ts`):
`!(this.hasValues() && this.hasSubstate())`. -/
def isEmpty {V : Type} (t : StateM V) : Bool :=
  !(hasValues t && hasSubstate t)

/-- Auxiliary for `splitPath`: scan the character list, cutting a segment
at every `'.'`; `acc` holds the characters of the current segment in
reverse. -/
def splitSegsAux : List Char → List Char → List String
  | [], acc => [String.mk acc.reverse]
  | c :: rest, acc =>
    if c = '.' then String.mk acc.reverse :: splitSegsAux rest []
    else splitSegsAux rest (c :: acc)

/-- Split a dotted path the way JavaScript's `path.split(separator)` does
for the one-character separator `"."`: `"a.b.c" ↦ ["a","b","c"]`,
`"" ↦ [""]`, `"a." ↦ ["a",""]`.  (The toolchain's `String.splitOn` has
identical behaviour on these inputs but does not reduce in the kernel,
so the split is spelled out over the character list.) -/
def splitPath (s : String) : List String := splitSegsAux s.data []

/-- Joining segments back with `"."`, as `separated.join(separator)` does. -/
def joinSegs : List String → String
  | [] => ""
  | [s] => s
  | s :: s2 :: rest => s ++ "." ++ joinSegs (s2 :: rest)

/-- `Impl.prototype._substateAtNode` on the segment list of the path:
a single segment is looked up in `this.substate`; otherwise the head
segment is resolved as a direct child (`this._substateAtNode(first)`)
and the remainder is resolved inside it. -/
def substateAtNodeSegs {V : Type} : StateM V → List String → Option (StateM V)
  | _, [] => none
  | t, [k] => alGet t.substate k
  | t, k :: k2 :: rest =>
    (alGet t.substate k).bind fun c => substateAtNodeSegs c (k2 :: rest)

/-- `Impl.prototype._valueAtNode` on the segment list of the path:
a single segment is looked up in `this.values`; otherwise the head
segment is resolved as a direct child and the remainder is resolved
inside it.  A missing head child fails the whole lookup. -/
def valueAtNodeSegs {V : Type} : StateM V → List String → Option V
  | _, [] => none
  | t, [k] => alGet t.values k
  | t, k :: k2 :: rest =>
    (alGet t.substate k).bind fun c => valueAtNodeSegs c (k2 :: rest)

/-- `Impl.prototype.substateAtNode`. -/
def substateAtNode {V : Type} (t : StateM V) (path : String) : Option (StateM V) :=
  substateAtNodeSegs t (splitPath path)

/-- `Impl.prototype.valueAtNode`. -/
def valueAtNode {V : Type} (t : StateM V) (path : String) : Option V :=
  valueAtNodeSegs t (splitPath path)

/-- `Impl.prototype.mappingValue` on the segment list of the path.

Single segment: `cloneBuilder().updateValueWithFunction(k, fn).build()`,
i.e. apply `fn` to the current value at `k`; a present result is stored
with `setValue` (`alSet`), an absent one removes the key (`removeValue`,
`alRemove`).  Multiple segments: fetch the direct child at the head
segment (defaulting to `empty()` when missing), recurse into it with the
remaining path, and reinstall the updated child with `updateSubstate`
(`alSet`).  An empty segment list cannot arise from a split; the source's
`Collections.first` failure then falls back to returning `this`. -/
def mappingValueSegs {V : Type} :
    StateM V → List String → (Option V → Option V) → StateM V
  | t, [], _ => t
  | t, [k], fn =>
    match fn (alGet t.values k) with
    | some v => ⟨alSet t.values k v, t.substate⟩
    | none => ⟨alRemove t.values k, t.substate⟩
  | t, k :: k2 :: rest, fn =>
    let sub := (alGet t.substate k).getD emptyState
    ⟨t.values, alSet t.substate k (mappingValueSegs sub (k2 :: rest) fn)⟩

/-- `Impl.prototype.updatingValue` on segments: `mappingValue` with the
constant update function `() => Try.unwrap(value)` — store `v` when the
argument is `some v`, remove the key when it is `none` (a nullish value). -/
def updatingValueSegs {V : Type} (t : StateM V) (p : List String)
    (v : Option V) : StateM V :=
  mappingValueSegs t p fun _ => v

/-- `Impl.prototype.removingValue`: `updatingValue(id, undefined)`. -/
def removingValueSegs {V : Type} (t : StateM V) (p : List String) : StateM V :=
  updatingValueSegs t p none

/-- `Impl.prototype.copyingValue`: read the source value and write it
(present or absent) at the destination via `updatingValue`. -/
def copyingValueSegs {V : Type} (t : StateM V) (src dest : List String) :
    StateM V :=
  updatingValueSegs t dest (valueAtNodeSegs t src)

/-- `Impl.prototype.movingValue`: `copyingValue(src, dest).removingValue(src)`. -/
def movingValueSegs {V : Type} (t : StateM V) (src dest : List String) :
    StateM V :=
  removingValueSegs (copyingValueSegs t src dest) src

/-- `Impl.prototype.updatingValue` (string path). -/
def updatingValue {V : Type} (t : StateM V) (path : String) (v : Option V) :
    StateM V :=
  updatingValueSegs t (splitPath path) v

/-- `Impl.prototype.removingValue` (string path). -/
def removingValue {V : Type} (t : StateM V) (path : String) : StateM V :=
  removingValueSegs t (splitPath path)

/-- `Impl.prototype.copyingValue` (string path). -/
def copyingValue {V : Type} (t : StateM V) (src dest : String) : StateM V :=
  updatingValue t dest (valueAtNode t src)

/-- `Impl.prototype.movingValue` (string path). -/
def movingValue {V : Type} (t : StateM V) (src dest : String) : StateM V :=
  removingValue (copyingValue t src dest) src

/-- The plain-object interchange shape (`{values: …, substate: …}`)
produced by `Impl.prototype.flatten` and accepted by `fromKeyValue` /
`fromState` (`state+utility.ts`). -/
inductive KV (V : Type) : Type where
  | mk (values : AList V) (substate : List (String × KV V)) : KV V

mutual
/-- `Impl.prototype.flatten` (`state+inspect.ts`): produce
`{values: this._values, substate: {key: child.flatten(), …}}`. -/
def flatten {V : Type} : StateM V → KV V
  | ⟨vs, ss⟩ => ⟨vs, flattenList ss⟩

/-- The `Objects.entries(this._substate).map(…)` loop inside `flatten`,
flattening every child in entry order. -/
def flattenList {V : Type} : List (String × StateM V) → List (String × KV V)
  | [] => []
  | (k, c) :: rest => (k, flatten c) :: flattenList rest
end

mutual
/-- `fromState` (`state+utility.ts`), on a plain `{values, substate}`
object: rebuild a node from `state.values` and the recursively rebuilt
`state.substate` entries.  (The branch that passes an existing `Impl`
through unchanged concerns only the JavaScript dynamic type and cannot
arise for a flattened plain object.) -/
def fromState {V : Type} : KV V → StateM V
  | ⟨vs, ss⟩ => ⟨vs, fromStateList ss⟩

/-- The `Objects.entries(substate).map(…)` loop inside `fromState`. -/
def fromStateList {V : Type} : List (String × KV V) → List (String × StateM V)
  | [] => []
  | (k, c) :: rest => (k, fromState c) :: fromStateList rest
end

/-- `fromKeyValue` (`state+utility.ts`) on the output of `flatten`: the
flattened object carries the `values` and `substate` properties, so
`Types.isInstance(state, 'values', 'substate')` holds and `fromKeyValue`
delegates to `fromState`. -/
def fromKeyValue {V : Type} (kv : KV V) : StateM V := fromState kv

/-! ## Association-list lemmas -/

theorem alGet_alSet_self {V : Type} (m : AList V) (k : String) (v : V) :
    alGet (alSet m k v) k = some v := by
  induction m with
  | nil => simp [alSet, alGet]
  | cons hd tl ih =>
    obtain ⟨k', v'⟩ := hd
    by_cases h : k' = k <;> simp [alSet, alGet, h, ih]

theorem alGet_alSet_ne {V : Type} (m : AList V) (k k' : String) (v : V)
    (h : k' ≠ k) : alGet (alSet m k v) k' = alGet m k' := by
  induction m with
  | nil => simp [alSet, alGet, Ne.symm h]
  | cons hd tl ih =>
    obtain ⟨k0, v0⟩ := hd
    by_cases h0 : k0 = k
    · subst h0
      simp [alSet, alGet, Ne.symm h]
    · simp [alSet, alGet, h0, ih]

theorem alGet_alRemove_self {V : Type} (m : AList V) (k : String) :
    alGet (alRemove m k) k = none := by
  induction m with
  | nil => simp [alRemove, alGet]
  | cons hd tl ih =>
    obtain ⟨k0, v0⟩ := hd
    by_cases h0 : k0 = k <;> simp [alRemove, alGet, h0, ih]

theorem alGet_alRemove_ne {V : Type} (m : AList V) (k k' : String)
    (h : k' ≠ k) : alGet (alRemove m k) k' = alGet m k' := by
  induction m with
  | nil => simp [alRemove, alGet]
  | cons hd tl ih =>
    obtain ⟨k0, v0⟩ := hd
    by_cases h0 : k0 = k
    · subst h0
      simp [alRemove, alGet, Ne.symm h, ih]
    · simp [alRemove, alGet, h0, ih]

/-! ## Splitting and joining paths -/

theorem splitSegsAux_ne_nil : ∀ (cs : List Char) (acc : List Char),
    splitSegsAux cs acc ≠ []
  | [], acc => by simp [splitSegsAux]
  | c :: rest, acc => by
    unfold splitSegsAux
    by_cases h : c = '.'
    · simp [h]
    · simpa [h] using splitSegsAux_ne_nil rest (c :: acc)

theorem splitPath_ne_nil (s : String) : splitPath s ≠ [] :=
  splitSegsAux_ne_nil s.data []

theorem joinSegs_cons (s : String) (l : List String) (hl : l ≠ []) :
    joinSegs (s :: l) = s ++ "." ++ joinSegs l := by
  cases l with
  | nil => exact absurd rfl hl
  | cons s2 rest => rfl

theorem joinSegs_splitSegsAux : ∀ (cs : List Char) (acc : List Char),
    joinSegs (splitSegsAux cs acc) = String.mk (acc.reverse ++ cs)
  | [], acc => by simp [splitSegsAux, joinSegs]
  | c :: rest, acc => by
    unfold splitSegsAux
    by_cases h : c = '.'
    · rw [if_pos h,
        joinSegs_cons _ _ (splitSegsAux_ne_nil rest []),
        joinSegs_splitSegsAux rest []]
      subst h
      show String.mk ((acc.reverse ++ ['.']) ++ rest)
        = String.mk (acc.reverse ++ '.' :: rest)
      simp
    · rw [if_neg h, joinSegs_splitSegsAux rest (c :: acc)]
      simp

/-- Re-joining the segments of a split recovers the original path, hence
`splitPath` is injective: distinct dotted paths have distinct segment
lists. -/
theorem joinSegs_splitPath (s : String) : joinSegs (splitPath s) = s := by
  have h := joinSegs_splitSegsAux s.data []
  simpa [splitPath] using h

theorem splitPath_injective {s1 s2 : String}
    (h : splitPath s1 = splitPath s2) : s1 = s2 := by
  have h1 := joinSegs_splitPath s1
  have h2 := joinSegs_splitPath s2
  rw [← h1, ← h2, h]

/-! ## Reading and writing along paths -/

/-- Reading any non-empty path on the empty state fails. -/
theorem valueAtNodeSegs_empty {V : Type} :
    ∀ p : List String, valueAtNodeSegs (emptyState (V := V)) p = none
  | [] => rfl
  | [_] => rfl
  | _ :: _ :: _ => by simp [valueAtNodeSegs, emptyState, alGet]

/-- Writing `w` (a present value, or absence for removal) at a path and
reading the same path back yields exactly `w`, on every tree:
`updatingValue` creates any missing intermediate substate nodes on the way
down, and `removingValue` makes the subsequent lookup fail. -/
theorem valueAtNodeSegs_updatingValueSegs_self {V : Type} :
    ∀ (p : List String) (_ : p ≠ []) (t : StateM V) (w : Option V),
      valueAtNodeSegs (updatingValueSegs t p w) p = w
  | [], h, _, _ => absurd rfl h
  | [k], _, t, w => by
    cases w <;>
      simp [updatingValueSegs, mappingValueSegs, valueAtNodeSegs,
        alGet_alSet_self, alGet_alRemove_self]
  | k :: k2 :: rest, _, t, w => by
    have ih := valueAtNodeSegs_updatingValueSegs_self (k2 :: rest)
      (by simp) ((alGet t.substate k).getD emptyState) w
    simp only [updatingValueSegs, mappingValueSegs] at ih ⊢
    simp [valueAtNodeSegs, alGet_alSet_self, ih]

/-- Frame property: writing (or removing) at a path `p` does not change
the value readable at any other path `q`, on every tree — intermediate
substates created on the way to `p` hold no values of their own. -/
theorem valueAtNodeSegs_updatingValueSegs_frame {V : Type} :
    ∀ (p q : List String), p ≠ q → p ≠ [] → q ≠ [] →
      ∀ (t : StateM V) (w : Option V),
        valueAtNodeSegs (updatingValueSegs t p w) q = valueAtNodeSegs t q
  | [], _, _, hp, _ => absurd rfl hp
  | _, [], _, _, hq => by exact absurd rfl hq
  | [k], [k'], hpq, _, _ => by
    intro t w
    have hne : k' ≠ k := by
      intro h
      exact hpq (by rw [h])
    cases w <;>
      simp [updatingValueSegs, mappingValueSegs, valueAtNodeSegs,
        alGet_alSet_ne _ _ _ _ hne, alGet_alRemove_ne _ _ _ hne]
  | [k], k1 :: q2 :: qrest, _, _, _ => by
    intro t w
    cases w <;>
      simp [updatingValueSegs, mappingValueSegs, valueAtNodeSegs]
  | k :: p2 :: prest, [k'], _, _, _ => by
    intro t w
    simp [updatingValueSegs, mappingValueSegs, valueAtNodeSegs]
  | k :: p2 :: prest, k1 :: q2 :: qrest, hpq, _, _ => by
    intro t w
    by_cases hk : k1 = k
    · subst hk
      have htails : (p2 :: prest) ≠ (q2 :: qrest) := by
        intro h
        exact hpq (by rw [h])
      simp only [updatingValueSegs, mappingValueSegs]
      cases hsub : alGet t.substate k1 with
      | some c =>
        have ih := valueAtNodeSegs_updatingValueSegs_frame (p2 :: prest)
          (q2 :: qrest) htails (by simp) (by simp) c w
        simp only [updatingValueSegs] at ih
        simp [valueAtNodeSegs, hsub, alGet_alSet_self, ih]
      | none =>
        have ih := (valueAtNodeSegs_updatingValueSegs_frame (p2 :: prest)
          (q2 :: qrest) htails (by simp) (by simp) emptyState w).trans
          (valueAtNodeSegs_empty (q2 :: qrest))
        simp only [updatingValueSegs] at ih
        simp [valueAtNodeSegs, hsub, alGet_alSet_self, ih]
    · simp only [updatingValueSegs, mappingValueSegs]
      simp [valueAtNodeSegs, alGet_alSet_ne _ _ _ _ hk]

/-! ## C1 — flatten / fromKeyValue round trip -/

mutual
theorem fromState_flatten {V : Type} :
    ∀ t : StateM V, fromState (flatten t) = t
  | ⟨vs, ss⟩ => by
    rw [flatten, fromState, fromStateList_flattenList ss]

theorem fromStateList_flattenList {V : Type} :
    ∀ ss : List (String × StateM V), fromStateList (flattenList ss) = ss
  | [] => rfl
  | (k, c) :: rest => by
    rw [flattenList, fromStateList, fromState_flatten c,
      fromStateList_flattenList rest]
end

/-- **C1** — For every state tree `n`, converting it to a plain object with
`flatten` (producing the `{values, substate}` shape) and rebuilding it with
`fromKeyValue` yields a tree structurally equal to `n` (structural equality
is plain equality of the model, which carries exactly the `values` and
`substate` components of every node). -/
theorem roundTrip_fromKeyValue_flatten {V : Type} (n : StateM V) :
    fromKeyValue (flatten n) = n :=
  fromState_flatten n

/-! ## C8 — resolving the empty path as a substate path -/

/-- **C8** — fails on the code (`code_bug`): the comment inside
`Impl.prototype._substateAtNode` says "If the path is an empty string,
return the current state", and the spec's recommended contract agrees,
but the code splits `""` into the single segment `""` and looks that key
up in `this.substate`, so the lookup fails with "No substate at" on any
node without a child literally named `""` — here evaluated on `empty()`. -/
theorem substateAtNode_empty_path_fails :
    substateAtNode (emptyState (V := Nat)) "" = none := rfl

/-! ## C10 — isEmpty semantics -/

/-- **C10** — For every node `n`, `isEmpty()` returns `true` iff `n` lacks
values or lacks substates (the negation of a conjunction): a node holding
only values, or only substates, is reported empty, and `isEmpty()` is
`false` exactly when the node has at least one value and at least one
substate simultaneously. -/
theorem isEmpty_iff_no_values_or_no_substate {V : Type} (n : StateM V) :
    isEmpty n = true ↔ (n.values = [] ∨ n.substate = []) := by
  cases n with
  | mk vs ss =>
    cases vs <;> cases ss <;>
      simp [isEmpty, hasValues, hasSubstate]

/-- **C2** — For every dotted path `path` (with any number of segments) and
every non-null value `v`, `updatingValue(empty(), path, v)` creates all
missing intermediate substate nodes, and `valueAtNode` applied to the
result at `path` returns `v`. -/
theorem pathCreation_valueAtNode_updatingValue_empty {V : Type}
    (path : String) (v : V) :
    valueAtNode (updatingValue (emptyState (V := V)) path (some v)) path
      = some v :=
  valueAtNodeSegs_updatingValueSegs_self (splitPath path)
    (splitPath_ne_nil path) emptyState (some v)

/-! ## C5 — move semantics -/

/-- **C5** — For every tree `n` and every pair of distinct dotted paths
`src ≠ dest`, after `movingValue(n, src, dest)` the value lookup at `src`
fails with NotFound, and the lookup at `dest` returns exactly the value
originally stored at `src` in `n`. -/
theorem moveSemantics_movingValue {V : Type} (n : StateM V)
    (src dest : String) (v : V) (hne : src ≠ dest)
    (h : valueAtNode n src = some v) :
    valueAtNode (movingValue n src dest) src = none ∧
      valueAtNode (movingValue n src dest) dest = some v := by
  have hps : splitPath src ≠ splitPath dest := fun hh =>
    hne (splitPath_injective hh)
  constructor
  · show valueAtNodeSegs
      (updatingValueSegs (copyingValue n src dest) (splitPath src) none)
      (splitPath src) = none
    exact valueAtNodeSegs_updatingValueSegs_self _ (splitPath_ne_nil src)
      _ none
  · show valueAtNodeSegs
      (updatingValueSegs (copyingValue n src dest) (splitPath src) none)
      (splitPath dest) = some v
    rw [valueAtNodeSegs_updatingValueSegs_frame (splitPath src)
      (splitPath dest) hps (splitPath_ne_nil src) (splitPath_ne_nil dest)
      _ none]
    show valueAtNodeSegs
      (updatingValueSegs n (splitPath dest) (valueAtNode n src))
      (splitPath dest) = some v
    rw [h]
    exact valueAtNodeSegs_updatingValueSegs_self _ (splitPath_ne_nil dest)
      _ (some v)

/-- Witness for C5: moving the value `7` stored at `"a.b"` to `"c"` in a
concrete tree. -/
theorem moveSemantics_movingValue_witness :
    valueAtNode
        (movingValue (updatingValue (emptyState (V := Nat)) "a.b" (some 7))
          "a.b" "c") "a.b" = none ∧
      valueAtNode
        (movingValue (updatingValue (emptyState (V := Nat)) "a.b" (some 7))
          "a.b" "c") "c" = some 7 :=
  moveSemantics_movingValue _ "a.b" "c" 7 (by decide) (by rfl)

/-! ## C6 — copy with absent source -/

/-- **C6** — fails on the code: the claimed behaviour is that
`copyingValue(n, src, dest)` performs no write at `dest` when `src` is
absent.  In the code, `copyingValue` passes `sourceValue.value`
(`undefined` for a failed lookup) to `updatingValue`, and `updatingValue`
with a nullish value removes the key at `dest`.  Concretely: in the tree
`empty().updatingValue("b", 1)` the path `"a"` is absent and `"b"` holds
`1`, yet after `copyingValue(_, "a", "b")` the lookup at `"b"` fails
instead of still returning `1`. -/
theorem copyingValue_absent_src_counterexample :
    valueAtNode (updatingValue (emptyState (V := Nat)) "b" (some 1)) "a"
        = none ∧
      valueAtNode (updatingValue (emptyState (V := Nat)) "b" (some 1)) "b"
        = some 1 ∧
      valueAtNode
        (copyingValue (updatingValue (emptyState (V := Nat)) "b" (some 1))
          "a" "b") "b" = none :=
  ⟨rfl, rfl, rfl⟩

/-- **C6 (amended)** — If the value lookup at `src` fails, then
`copyingValue(n, src, dest)` copies the absence: the write at `dest` is a
removal (`updatingValue(dest, undefined)`), so the lookup at `dest` fails
afterward — in particular a value already present at `dest` is removed —
while the value at any path other than `dest` is unchanged. -/
theorem copyingValue_absent_src_removes_dest {V : Type} (n : StateM V)
    (src dest other : String) (h : valueAtNode n src = none)
    (hother : other ≠ dest) :
    valueAtNode (copyingValue n src dest) dest = none ∧
      valueAtNode (copyingValue n src dest) other = valueAtNode n other := by
  have hpo : splitPath dest ≠ splitPath other := fun hh =>
    hother (splitPath_injective hh).symm
  constructor
  · show valueAtNodeSegs
      (updatingValueSegs n (splitPath dest) (valueAtNode n src))
      (splitPath dest) = none
    rw [h]
    exact valueAtNodeSegs_updatingValueSegs_self _ (splitPath_ne_nil dest)
      _ none
  · show valueAtNodeSegs
      (updatingValueSegs n (splitPath dest) (valueAtNode n src))
      (splitPath other) = valueAtNode n other
    exact valueAtNodeSegs_updatingValueSegs_frame (splitPath dest)
      (splitPath other) hpo (splitPath_ne_nil dest) (splitPath_ne_nil other)
      n (valueAtNode n src)

/-- Witness for the amended C6: copying from the absent `"a"` to `"c"`
in `empty().updatingValue("b", 1)` removes nothing readable at `"c"` and
leaves `"b"` untouched. -/
theorem copyingValue_absent_src_removes_dest_witness :
    valueAtNode
        (copyingValue (updatingValue (emptyState (V := Nat)) "b" (some 1))
          "a" "c") "c" = none ∧
      valueAtNode
        (copyingValue (updatingValue (emptyState (V := Nat)) "b" (some 1))
          "a" "c") "b"
        = valueAtNode (updatingValue (emptyState (V := Nat)) "b" (some 1))
            "b" :=
  copyingValue_absent_src_removes_dest _ "a" "c" "b" (by rfl) (by decide)

/-! ## C7 — structural equality -/

/-- The per-key value loop of `Impl.prototype.equals`: every key of
`this._values` must be present in the other node's values with a strictly
equal (`===`) value; a key present here but absent (or unequal) there
fails.  Keys present only in the other node are never examined.  (The
source's `null`/`undefined`-on-both-sides branches cannot arise in the
model, which stores no nullish leaf values.) -/
def equalsValues {V : Type} [DecidableEq V] (vs ovs : AList V) : Bool :=
  vs.all fun p =>
    match alGet ovs p.1 with
    | some v2 => decide (p.2 = v2)
    | none => false

mutual
/-- `Impl.prototype.equals`: compare every own value key and, recursively,
every own substate key against the other node.  (The source first passes
the right-hand side through `fromKeyValue`; an `Impl` — which both sides
are here — passes through unchanged.) -/
def equals {V : Type} [DecidableEq V] : StateM V → StateM V → Bool
  | ⟨vs, ss⟩, other =>
    equalsValues vs other.values && equalsSubstates ss other.substate

/-- The substate loop of `equals`: every own substate key must be present
in the other node's substate with a recursively equal child. -/
def equalsSubstates {V : Type} [DecidableEq V] :
    List (String × StateM V) → List (String × StateM V) → Bool
  | [], _ => true
  | (k, c) :: rest, oss =>
    (match alGet oss k with
     | some c2 => equals c c2
     | none => false) && equalsSubstates rest oss
end

/-- No two entries of a key-value list share a key — the invariant every
JavaScript object enjoys by construction. -/
def keysUnique {α : Type} : List (String × α) → Bool
  | [] => true
  | (k, _) :: rest => !(rest.any fun p => p.1 == k) && keysUnique rest

mutual
/-- Well-formed model states: key lists are duplicate-free at every level,
as is automatic for the JavaScript objects the model represents. -/
def wfState {V : Type} : StateM V → Bool
  | ⟨vs, ss⟩ => keysUnique vs && keysUnique ss && wfList ss

/-- `wfState` for every child of a substate list. -/
def wfList {V : Type} : List (String × StateM V) → Bool
  | [] => true
  | (_, c) :: rest => wfState c && wfList rest
end

theorem mem_of_alGet_some {V : Type} :
    ∀ (m : AList V) (k : String) (v : V), alGet m k = some v → (k, v) ∈ m := by
  intro m k v h
  induction m with
  | nil => simp [alGet] at h
  | cons hd tl ih =>
    obtain ⟨k0, v0⟩ := hd
    by_cases h0 : k0 = k
    · subst h0
      simp [alGet] at h
      simp [h]
    · simp [alGet, h0] at h
      simp [ih h]

theorem alGet_of_mem_keysUnique {α : Type} :
    ∀ (l : List (String × α)), keysUnique l = true →
      ∀ p ∈ l, alGet l p.1 = some p.2 := by
  intro l hl p hp
  induction l with
  | nil => cases hp
  | cons hd tl ih =>
    obtain ⟨k, v⟩ := hd
    simp only [keysUnique, Bool.and_eq_true, Bool.not_eq_true',
      List.any_eq_false] at hl
    rcases List.mem_cons.mp hp with hp0 | hp1
    · rw [hp0]
      simp [alGet]
    · have hk : k ≠ p.1 := by
        intro hh
        have := hl.1 p hp1
        simp [hh] at this
      simp only [alGet, if_neg hk]
      exact ih hl.2 hp1

theorem equalsValues_refl {V : Type} [DecidableEq V] (vs : AList V)
    (h : keysUnique vs = true) : equalsValues vs vs = true := by
  rw [equalsValues, List.all_eq_true]
  intro p hp
  rw [alGet_of_mem_keysUnique vs h p hp]
  simp

theorem wfList_mem {V : Type} :
    ∀ ss : List (String × StateM V), wfList ss = true →
      ∀ p ∈ ss, wfState p.2 = true := by
  intro ss h p hp
  induction ss with
  | nil => cases hp
  | cons hd tl ih =>
    rw [wfList, Bool.and_eq_true] at h
    rcases List.mem_cons.mp hp with hp0 | hp1
    · obtain ⟨k, c⟩ := hd
      rw [hp0]
      exact h.1
    · exact ih h.2 hp1

mutual
theorem equals_refl {V : Type} [DecidableEq V] :
    ∀ t : StateM V, wfState t = true → equals t t = true
  | ⟨vs, ss⟩, h => by
    rw [wfState, Bool.and_eq_true, Bool.and_eq_true] at h
    rw [equals, StateM.values_mk, StateM.substate_mk,
      equalsValues_refl vs h.1.1,
      equalsSubstates_refl ss ss
        (alGet_of_mem_keysUnique ss h.1.2)
        (wfList_mem ss h.2)]
    rfl

theorem equalsSubstates_refl {V : Type} [DecidableEq V] :
    ∀ (ss oss : List (String × StateM V)),
      (∀ p ∈ ss, alGet oss p.1 = some p.2) →
      (∀ p ∈ ss, wfState p.2 = true) →
      equalsSubstates ss oss = true
  | [], _, _, _ => by rw [equalsSubstates]
  | (k, c) :: rest, oss, hget, hwf => by
    rw [equalsSubstates, hget (k, c) (List.mem_cons_self _ _)]
    show (equals c c && equalsSubstates rest oss) = true
    rw [equals_refl c (hwf (k, c) (List.mem_cons_self _ _)),
      equalsSubstates_refl rest oss
        (fun p hp => hget p (List.mem_cons_of_mem _ hp))
        (fun p hp => hwf p (List.mem_cons_of_mem _ hp))]
    rfl
end

/-- **C7** — fails on the code: the claim says `n.equals(n2)` with
`n2 = n.updatingValue("x", 1)` is false whenever `n` did not already hold
the value `1` at `"x"`.  But `equals` only iterates the receiver's own
keys, so when `"x"` is absent from `n` entirely, the extra key of `n2` is
never examined: concretely `empty().equals(empty().updatingValue("x", 1))`
returns true even though `empty()` holds no value at `"x"`. -/
theorem equals_one_sided_counterexample :
    valueAtNode (emptyState (V := Nat)) "x" ≠ some 1 ∧
      equals (emptyState (V := Nat))
        (updatingValue (emptyState (V := Nat)) "x" (some 1)) = true := by
  constructor
  · decide
  · show equals (⟨[], []⟩ : StateM Nat) ⟨[("x", 1)], []⟩ = true
    rw [equals, equalsSubstates]
    simp [equalsValues]

/-- **C7 (amended)** — Letting `n2 = n.updatingValue("x", 1)`:
`n.equals(n2)` is false whenever `n` holds a value at key `"x"` different
from `1` (when `"x"` is absent from `n` entirely the one-sided key
iteration of `equals` can still report true), and `m.equals(m)` is true
for every node `m` (equality is reflexive; `n2` in particular). -/
theorem equals_after_updatingValue_amended (n : StateM Nat) (w : Nat)
    (hx : alGet n.values "x" = some w) (hw : w ≠ 1) (m : StateM Nat)
    (hm : wfState m = true) :
    equals n (updatingValue n "x" (some 1)) = false ∧ equals m m = true := by
  refine ⟨?_, equals_refl m hm⟩
  obtain ⟨vs, ss⟩ := n
  rw [StateM.values_mk] at hx
  have hupd : updatingValue (⟨vs, ss⟩ : StateM Nat) "x" (some 1)
      = ⟨alSet vs "x" 1, ss⟩ := rfl
  rw [hupd, equals, StateM.values_mk, StateM.substate_mk]
  have hfalse : equalsValues vs (alSet vs "x" 1) = false := by
    rw [equalsValues]
    rw [List.all_eq_false]
    refine ⟨("x", w), mem_of_alGet_some vs "x" w hx, ?_⟩
    rw [alGet_alSet_self]
    simp [hw]
  rw [hfalse]
  rfl

/-- Witness for the amended C7: `n` holds `2` at `"x"`, and the reflexive
half is exercised on `n2 = n.updatingValue("x", 1)` itself. -/
theorem equals_after_updatingValue_amended_witness :
    equals (⟨[("x", 2)], []⟩ : StateM Nat)
        (updatingValue (⟨[("x", 2)], []⟩ : StateM Nat) "x" (some 1)) = false
      ∧ equals (updatingValue (⟨[("x", 2)], []⟩ : StateM Nat) "x" (some 1))
          (updatingValue (⟨[("x", 2)], []⟩ : StateM Nat) "x" (some 1))
          = true :=
  equals_after_updatingValue_amended ⟨[("x", 2)], []⟩ 2 (by rfl)
    (by decide) (updatingValue ⟨[("x", 2)], []⟩ "x" (some 1))
    (by rw [show updatingValue (⟨[("x", 2)], []⟩ : StateM Nat) "x" (some 1)
          = ⟨[("x", 1)], []⟩ from rfl, wfState]
        rfl)

/-! ## C9 — branch decomposition -/

/-- `Impl.prototype.updatingSubstate` (`state+modify.ts`) on the segment
list: a single segment installs (`updateSubstate` with a present node →
`setSubstate`, `alSet`) or removes (`removeSubState`, `alRemove`) the
child; a longer path fetches the direct child at the head segment
(`this._substate[first]`, defaulting to `empty()`), recurses, and
reinstalls the updated child. -/
def updatingSubstateSegs {V : Type} :
    StateM V → List String → Option (StateM V) → StateM V
  | t, [], _ => t
  | t, [k], some ss => ⟨t.values, alSet t.substate k ss⟩
  | t, [k], none => ⟨t.values, alRemove t.substate k⟩
  | t, k :: k2 :: rest, ss =>
    ⟨t.values,
      alSet t.substate k
        (updatingSubstateSegs ((alGet t.substate k).getD emptyState)
          (k2 :: rest) ss)⟩

/-- `Impl.prototype.updatingSubstate` (string path). -/
def updatingSubstate {V : Type} (t : StateM V) (path : String)
    (ss : Option (StateM V)) : StateM V :=
  updatingSubstateSegs t (splitPath path) ss

/-- A branch tree has at most one substate key at every level. -/
def singleBranchB {V : Type} : StateM V → Bool
  | ⟨_, []⟩ => true
  | ⟨_, [(_, c)]⟩ => singleBranchB c
  | ⟨_, _ :: _ :: _⟩ => false

mutual
/-- `Impl.prototype._createSingleBranches` (`state+inspect.ts`).

With a substate key (recursive call): an empty substate makes the inner
`Try` fail, so the default `[[ssKey, this]]` is returned; otherwise the
per-child branch lists are concatenated.  At the top level (`ssKey`
undefined): a childless node returns `[['', this]]`, and otherwise every
collected branch `(k, b)` is wrapped once more as
`['', empty().updatingSubstate(k, b)]`. -/
def _createSingleBranches {V : Type} :
    StateM V → Option String → List (String × StateM V)
  | ⟨vs, []⟩, some k => [(k, ⟨vs, []⟩)]
  | ⟨_, s :: srest⟩, some _ => csbList (s :: srest)
  | ⟨vs, []⟩, none => [("", ⟨vs, []⟩)]
  | ⟨_, s :: srest⟩, none =>
    (csbList (s :: srest)).map fun p =>
      ("", updatingSubstate emptyState p.1 (some p.2))

/-- The fold over `Objects.entries(this._substate)` inside
`_createSingleBranches`: collect each child's branches (recursing with the
child's key as `ssKey`); a non-empty branch list is re-wrapped entrywise as
`[k, empty().updatingSubstate(branchKey, branch)]`, an empty one falls
back to `[k, child]`; the per-child lists are concatenated. -/
def csbList {V : Type} : List (String × StateM V) → List (String × StateM V)
  | [] => []
  | (k, c) :: rest =>
    (let branches := _createSingleBranches c (some k)
     if branches.length > 0 then
       branches.map fun p => (k, updatingSubstate emptyState p.1 (some p.2))
     else [(k, c)]) ++ csbList rest
end

/-- `Impl.prototype.createSingleBranches`:
`this._createSingleBranches(undefined).map(v => v[1])`. -/
def createSingleBranches {V : Type} (t : StateM V) : List (StateM V) :=
  (_createSingleBranches t none).map Prod.snd

mutual
/-- The number of single branches a tree decomposes into: `1` for a
childless node, otherwise the sum over all children. -/
def branchCount {V : Type} : StateM V → Nat
  | ⟨_, []⟩ => 1
  | ⟨_, s :: srest⟩ => branchCountList (s :: srest)

/-- Sum of `branchCount` over a substate list. -/
def branchCountList {V : Type} : List (String × StateM V) → Nat
  | [] => 0
  | (_, c) :: rest => branchCount c + branchCountList rest
end

/-- The uniformly generated tree of the spec's §8: `L` levels, `K`
substates per non-leaf level, one own value per node. -/
def uniformTree (K : Nat) : Nat → StateM Nat
  | 0 => ⟨[("v", 0)], []⟩
  | 1 => ⟨[("v", 0)], []⟩
  | L + 2 =>
    ⟨[("v", 0)], (List.range K).map fun i => (toString i, uniformTree K (L + 1))⟩

theorem branchCount_pos {V : Type} : ∀ t : StateM V, 1 ≤ branchCount t
  | ⟨_, []⟩ => Nat.le_refl 1
  | ⟨vs, (k, c) :: srest⟩ => by
    rw [branchCount, branchCountList]
    have := branchCount_pos c
    omega

theorem createSingleBranchesAux_ne_nil {V : Type} :
    ∀ (t : StateM V) (key : Option String),
      _createSingleBranches t key ≠ []
  | ⟨vs, []⟩, some k => by simp [_createSingleBranches]
  | ⟨vs, (k, c) :: srest⟩, some k0 => by
    rw [_createSingleBranches, csbList]
    intro h
    rcases List.append_eq_nil.mp h with ⟨h1, _⟩
    by_cases hb : (_createSingleBranches c (some k)).length > 0
    · rw [if_pos hb] at h1
      rw [← List.length_eq_zero] at h1
      rw [List.length_map] at h1
      omega
    · rw [if_neg hb] at h1
      exact List.cons_ne_nil _ _ h1
  | ⟨vs, []⟩, none => by simp [_createSingleBranches]
  | ⟨vs, (k, c) :: srest⟩, none => by
    rw [_createSingleBranches]
    intro h
    rw [← List.length_eq_zero, List.length_map, List.length_eq_zero] at h
    rw [csbList] at h
    rcases List.append_eq_nil.mp h with ⟨h1, _⟩
    by_cases hb : (_createSingleBranches c (some k)).length > 0
    · rw [if_pos hb] at h1
      rw [← List.length_eq_zero] at h1
      rw [List.length_map] at h1
      omega
    · rw [if_neg hb] at h1
      exact List.cons_ne_nil _ _ h1

mutual
theorem length_createSingleBranchesAux {V : Type} :
    ∀ (t : StateM V) (key : Option String),
      (_createSingleBranches t key).length = branchCount t
  | ⟨vs, []⟩, some k => rfl
  | ⟨vs, s :: srest⟩, some k => by
    rw [_createSingleBranches, length_csbList (s :: srest), branchCount]
  | ⟨vs, []⟩, none => rfl
  | ⟨vs, s :: srest⟩, none => by
    rw [_createSingleBranches, List.length_map, length_csbList (s :: srest),
      branchCount]

theorem length_csbList {V : Type} :
    ∀ ss : List (String × StateM V),
      (csbList ss).length = branchCountList ss
  | [] => rfl
  | (k, c) :: rest => by
    have hb := length_createSingleBranchesAux c (some k)
    have hpos := branchCount_pos c
    rw [csbList, List.length_append, length_csbList rest, branchCountList]
    simp only
    rw [if_pos (by rw [hb]; omega), List.length_map, hb]
end

/-- The length of `createSingleBranches` is the product, across levels, of
the child counts: `branchCount`. -/
theorem length_createSingleBranches {V : Type} (t : StateM V) :
    (createSingleBranches t).length = branchCount t := by
  rw [createSingleBranches, List.length_map, length_createSingleBranchesAux]

/-- `empty().updatingSubstate(path, b)` is a single-key chain ending in
`b`: it is a single branch exactly when `b` is. -/
theorem singleBranch_updatingSubstateSegs_empty {V : Type} :
    ∀ (p : List String) (_ : p ≠ []) (b : StateM V),
      singleBranchB (updatingSubstateSegs emptyState p (some b))
        = singleBranchB b
  | [], h, _ => absurd rfl h
  | [k], _, b => by
    rw [show updatingSubstateSegs (emptyState (V := V)) [k] (some b)
        = ⟨[], [(k, b)]⟩ from rfl]
    rw [singleBranchB]
  | k :: k2 :: rest, _, b => by
    rw [show updatingSubstateSegs (emptyState (V := V)) (k :: k2 :: rest)
          (some b)
        = ⟨[], [(k, updatingSubstateSegs emptyState (k2 :: rest) (some b))]⟩
        from rfl]
    rw [singleBranchB]
    exact singleBranch_updatingSubstateSegs_empty (k2 :: rest) (by simp) b

mutual
theorem singleBranch_createSingleBranchesAux {V : Type} :
    ∀ (t : StateM V) (key : Option String),
      ∀ p ∈ _createSingleBranches t key, singleBranchB p.2 = true
  | ⟨vs, []⟩, some k => by
    intro p hp
    rw [_createSingleBranches] at hp
    rcases List.mem_singleton.mp hp with rfl
    rfl
  | ⟨vs, s :: srest⟩, some k => by
    intro p hp
    rw [_createSingleBranches] at hp
    exact singleBranch_csbList (s :: srest) p hp
  | ⟨vs, []⟩, none => by
    intro p hp
    rw [_createSingleBranches] at hp
    rcases List.mem_singleton.mp hp with rfl
    rfl
  | ⟨vs, s :: srest⟩, none => by
    intro p hp
    rw [_createSingleBranches] at hp
    rcases List.mem_map.mp hp with ⟨q, hq, rfl⟩
    show singleBranchB (updatingSubstate emptyState q.1 (some q.2)) = true
    rw [updatingSubstate,
      singleBranch_updatingSubstateSegs_empty (splitPath q.1)
        (splitPath_ne_nil q.1) q.2]
    exact singleBranch_csbList (s :: srest) q hq

theorem singleBranch_csbList {V : Type} :
    ∀ ss : List (String × StateM V),
      ∀ p ∈ csbList ss, singleBranchB p.2 = true
  | [] => by intro p hp; cases hp
  | (k, c) :: rest => by
    intro p hp
    rw [csbList] at hp
    simp only at hp
    rcases List.mem_append.mp hp with hp1 | hp2
    · by_cases hb : (_createSingleBranches c (some k)).length > 0
      · rw [if_pos hb] at hp1
        rcases List.mem_map.mp hp1 with ⟨q, hq, rfl⟩
        show singleBranchB (updatingSubstate emptyState q.1 (some q.2)) = true
        rw [updatingSubstate,
          singleBranch_updatingSubstateSegs_empty (splitPath q.1)
            (splitPath_ne_nil q.1) q.2]
        exact singleBranch_createSingleBranchesAux c (some k) q hq
      · exact absurd
          (Nat.pos_of_ne_zero fun hz => createSingleBranchesAux_ne_nil c
            (some k) (List.length_eq_zero.mp hz)) hb
    · exact singleBranch_csbList rest p hp2
end

theorem branchCountList_map_const {V : Type} :
    ∀ (l : List String) (c : StateM V),
      branchCountList (l.map fun k => (k, c)) = l.length * branchCount c
  | [], _ => by simp [branchCountList]
  | k :: rest, c => by
    rw [List.map_cons, branchCountList, branchCountList_map_const rest c,
      List.length_cons]
    ring

theorem branchCount_mk_ne_nil {V : Type} (vs : AList V)
    (ss : List (String × StateM V)) (h : ss ≠ []) :
    branchCount (⟨vs, ss⟩ : StateM V) = branchCountList ss := by
  cases ss with
  | nil => exact absurd rfl h
  | cons s srest => rw [branchCount]

theorem branchCount_uniformTree (K : Nat) :
    ∀ L : Nat, 1 ≤ K → 1 ≤ L →
      branchCount (uniformTree K L) = K ^ (L - 1)
  | 0, _, hL => absurd hL (by omega)
  | 1, _, _ => rfl
  | L + 2, hK, _ => by
    rw [uniformTree]
    have hne : ((List.range K).map
        fun i => (toString i, uniformTree K (L + 1))) ≠ [] := by
      rw [← List.length_pos, List.length_map, List.length_range]
      omega
    rw [branchCount_mk_ne_nil _ _ hne]
    rw [show ((List.range K).map fun i => (toString i, uniformTree K (L + 1)))
        = ((List.range K).map toString).map
            fun k => (k, uniformTree K (L + 1)) by
      rw [List.map_map]
      rfl]
    rw [branchCountList_map_const, List.length_map, List.length_range]
    rw [branchCount_uniformTree K (L + 1) hK (by omega)]
    rw [show L + 2 - 1 = (L + 1 - 1) + 1 by omega]
    rw [pow_succ]
    ring

/-- **C9** — For the uniformly generated tree with `L` levels and `K`
substates per non-leaf level, `createSingleBranches` returns exactly
`K^(L-1)` branch trees, and every returned branch contains at most one
substate key at every level. -/
theorem createSingleBranches_uniformTree (K L : Nat) (hK : 1 ≤ K)
    (hL : 1 ≤ L) :
    (createSingleBranches (uniformTree K L)).length = K ^ (L - 1) ∧
      (createSingleBranches (uniformTree K L)).all singleBranchB = true := by
  constructor
  · rw [length_createSingleBranches]
    exact branchCount_uniformTree K L hK hL
  · rw [List.all_eq_true]
    intro b hb
    rw [createSingleBranches] at hb
    rcases List.mem_map.mp hb with ⟨q, hq, rfl⟩
    exact singleBranch_createSingleBranchesAux (uniformTree K L) none q hq

/-- Witness for C9: the uniform tree with `K = 2`, `L = 3` decomposes into
`2^2 = 4` single branches. -/
theorem createSingleBranches_uniformTree_witness :
    (createSingleBranches (uniformTree 2 3)).length = 2 ^ 2 ∧
      (createSingleBranches (uniformTree 2 3)).all singleBranchB = true :=
  createSingleBranches_uniformTree 2 3 (by decide) (by decide)

/-! ## C3, C4 — aliasing, snapshots, and the Builder write window

The immutability claims concern JavaScript object identity: whether the
maps returned by the `values`/`substate` accessors alias the node's
internal `_values`/`_substate` objects, and whether a `Builder` can still
write to a node after `build()`.  They are modelled with an explicit
store: a `Heap` holds every allocated values-map and substate-map, and a
node handle (`NodeRef`) holds the indices of its two maps.  Child nodes
inside a substate map are plain immutable model trees: the mutation
surface of the cited accessors and Builder methods is a single node's own
two maps.  All modelled Builder methods are total functions — the
`Builder` of `state+main.ts` contains no ownership or finalization check
and no throw path. -/

theorem getD_append_lt {α : Type} :
    ∀ (l1 l2 : List α) (d : α) (i : Nat), i < l1.length →
      (l1 ++ l2).getD i d = l1.getD i d
  | [], _, _, i, h => by simp at h
  | a :: l1, l2, d, 0, _ => rfl
  | a :: l1, l2, d, i + 1, h =>
    getD_append_lt l1 l2 d i (by simpa using h)

theorem getD_append_length {α : Type} :
    ∀ (l : List α) (x d : α), (l ++ [x]).getD l.length d = x
  | [], _, _ => rfl
  | _ :: l, x, d => getD_append_length l x d

theorem getD_set_ne {α : Type} :
    ∀ (l : List α) (j i : Nat) (m d : α), i ≠ j →
      (l.set j m).getD i d = l.getD i d
  | [], _, _, _, _, _ => rfl
  | _ :: l, 0, 0, m, d, h => absurd rfl h
  | a :: l, 0, i + 1, m, d, _ => rfl
  | a :: l, j + 1, 0, m, d, _ => rfl
  | a :: l, j + 1, i + 1, m, d, h =>
    getD_set_ne l j i m d (fun hh => h (by rw [hh]))

theorem getD_set_self {α : Type} :
    ∀ (l : List α) (i : Nat) (m d : α), i < l.length →
      (l.set i m).getD i d = m
  | [], i, _, _, h => by simp at h
  | a :: l, 0, m, d, _ => rfl
  | a :: l, i + 1, m, d, h => getD_set_self l i m d (by simpa using h)

/-- Segments produced by a split never contain the separator. -/
theorem no_dot_splitSegsAux :
    ∀ (cs acc : List Char), '.' ∉ acc →
      ∀ s ∈ splitSegsAux cs acc, '.' ∉ s.data
  | [], acc, hacc => by
    intro s hs
    rw [splitSegsAux] at hs
    rcases List.mem_singleton.mp hs with rfl
    simpa using hacc
  | c :: rest, acc, hacc => by
    intro s hs
    rw [splitSegsAux] at hs
    by_cases hc : c = '.'
    · rw [if_pos hc] at hs
      rcases List.mem_cons.mp hs with rfl | hs1
      · simpa using hacc
      · exact no_dot_splitSegsAux rest [] (by simp) s hs1
    · rw [if_neg hc] at hs
      refine no_dot_splitSegsAux rest (c :: acc) ?_ s hs
      intro hmem
      rcases List.mem_cons.mp hmem with h1 | h1
      · exact hc h1.symm
      · exact hacc h1

/-- A separator-free string splits into the single segment it is — the
key fact connecting flat single-key operations on a terminal segment to
the string-level entry points. -/
theorem splitSegsAux_no_dot :
    ∀ (cs acc : List Char), '.' ∉ cs →
      splitSegsAux cs acc = [String.mk (acc.reverse ++ cs)]
  | [], acc, _ => by simp [splitSegsAux]
  | c :: rest, acc, h => by
    have hc : c ≠ '.' := fun hh => h (by rw [hh]; exact List.mem_cons_self _ _)
    rw [splitSegsAux, if_neg hc,
      splitSegsAux_no_dot rest (c :: acc)
        (fun hh => h (List.mem_cons_of_mem _ hh))]
    simp

theorem splitPath_no_dot (k : String) (h : '.' ∉ k.data) :
    splitPath k = [k] := by
  rw [splitPath, splitSegsAux_no_dot k.data [] h]
  simp

theorem splitPath_segment_no_dot (path : String) :
    ∀ s ∈ splitPath path, '.' ∉ s.data :=
  no_dot_splitSegsAux path.data [] (by simp)

/-- The store of all allocated values-maps and substate-maps. -/
structure Heap (V : Type) : Type where
  hv : List (AList V)
  hs : List (List (String × StateM V))

/-- A node: the addresses of its internal `_values` and `_substate`. -/
structure NodeRef : Type where
  va : Nat
  sa : Nat

def readV {V : Type} (h : Heap V) (a : Nat) : AList V := h.hv.getD a []

def readS {V : Type} (h : Heap V) (a : Nat) : List (String × StateM V) :=
  h.hs.getD a []

/-- In-place mutation of an allocated values-map (`obj[k] = v`,
`delete obj[k]`, wholesale clobbering — any new contents). -/
def writeV {V : Type} (h : Heap V) (a : Nat) (m : AList V) : Heap V :=
  ⟨h.hv.set a m, h.hs⟩

def writeS {V : Type} (h : Heap V) (a : Nat)
    (m : List (String × StateM V)) : Heap V :=
  ⟨h.hv, h.hs.set a m⟩

def allocV {V : Type} (h : Heap V) (m : AList V) : Heap V × Nat :=
  (⟨h.hv ++ [m], h.hs⟩, h.hv.length)

def allocS {V : Type} (h : Heap V) (m : List (String × StateM V)) :
    Heap V × Nat :=
  (⟨h.hv, h.hs ++ [m]⟩, h.hs.length)

/-- The tree a heap-allocated node currently denotes; every read operation
(`valueAtNode`, `substateAtNode`, `flatten`, …) is a function of this. -/
def materialize {V : Type} (h : Heap V) (n : NodeRef) : StateM V :=
  ⟨readV h n.va, readS h n.sa⟩

/-- The `values` getter (`state+main.ts`):
`Object.assign({}, this._values)` — allocate a fresh object holding a
copy of the internal map, and return its (fresh) address. -/
def valuesGetter {V : Type} (h : Heap V) (n : NodeRef) : Heap V × Nat :=
  allocV h (readV h n.va)

/-- The `substate` getter: `Object.assign({}, this._substate)`. -/
def substateGetter {V : Type} (h : Heap V) (n : NodeRef) : Heap V × Nat :=
  allocS h (readS h n.sa)

/-- `cloneBuilder()` = `builder().withBuildable(this)`: the new `Impl`'s
maps are replaced by `setValues`/`setSubstates` with the snapshots
produced by the `values`/`substate` getters, so the builder's node points
at two freshly allocated copies.  (The discarded initial empty maps of
`new Impl()` are omitted from the store.) -/
def cloneBuilderH {V : Type} (h : Heap V) (n : NodeRef) : Heap V × NodeRef :=
  let hv1 := valuesGetter h n
  let hs1 := substateGetter hv1.1 n
  (hs1.1, ⟨hv1.2, hs1.2⟩)

theorem cloneBuilderH_eq {V : Type} (h : Heap V) (n : NodeRef) :
    cloneBuilderH h n
      = (⟨h.hv ++ [readV h n.va], h.hs ++ [readS h n.sa]⟩,
          ⟨h.hv.length, h.hs.length⟩) := rfl

/-- `Builder.updateValueWithFunction(id, fn)` (`state+main.ts`): read
`this.state.valueAtNode(id)` (full path resolution on the builder's
node), apply `fn`, then `setValue(id, v)` — an in-place write of the raw
key into the node's values map — or `removeValue(id)` when the result is
nullish. -/
def updateValueWithFunctionH {V : Type} (h : Heap V) (n : NodeRef)
    (id : String) (fn : Option V → Option V) : Heap V :=
  match fn (valueAtNode (materialize h n) id) with
  | some v => writeV h n.va (alSet (readV h n.va) id v)
  | none => writeV h n.va (alRemove (readV h n.va) id)

/-- `Builder.updateSubstate(id, ss)`: `setSubstate` / `removeSubState`,
in place on the builder's node. -/
def updateSubstateH {V : Type} (h : Heap V) (n : NodeRef) (id : String)
    (ss : Option (StateM V)) : Heap V :=
  match ss with
  | some s => writeS h n.sa (alSet (readS h n.sa) id s)
  | none => writeS h n.sa (alRemove (readS h n.sa) id)

/-- Heap-level `Impl.prototype.mappingValue`: each call clones the
receiver through `cloneBuilder()` and performs the builder write on the
clone, returning the built node.  The recursion below the root operates
on the plain child trees (`mappingValueSegs`), children being immutable
model values here. -/
def mappingValueH {V : Type} (h : Heap V) (n : NodeRef) :
    List String → (Option V → Option V) → Heap V × NodeRef
  | [], _ => (h, n)
  | [k], fn =>
    let hb := cloneBuilderH h n
    (updateValueWithFunctionH hb.1 hb.2 k fn, hb.2)
  | k :: k2 :: rest, fn =>
    let sub := (alGet (readS h n.sa) k).getD emptyState
    let newSub := mappingValueSegs sub (k2 :: rest) fn
    let hb := cloneBuilderH h n
    (updateSubstateH hb.1 hb.2 k (some newSub), hb.2)

/-- The `Builder` of `state+main.ts`: it holds one node. -/
structure BuilderH : Type where
  node : NodeRef

/-- `Builder.build()` in `state+main.ts`: `return this.state;` — no
finalization flag is set and the builder keeps its reference. -/
def buildH (b : BuilderH) : NodeRef := b.node

/-- `Builder.updateValue(id, value)`: `updateValueWithFunction` with the
constant update function. -/
def builderUpdateValueH {V : Type} (h : Heap V) (b : BuilderH) (id : String)
    (v : Option V) : Heap V :=
  updateValueWithFunctionH h b.node id fun _ => v

theorem materialize_writeV_freshV {V : Type} (h : Heap V) (n : NodeRef)
    (x : AList V) (m : AList V) (hva : n.va < h.hv.length) :
    materialize (writeV ⟨h.hv ++ [x], h.hs⟩ h.hv.length m) n
      = materialize h n := by
  show (⟨((h.hv ++ [x]).set h.hv.length m).getD n.va [],
      h.hs.getD n.sa []⟩ : StateM V)
    = ⟨h.hv.getD n.va [], h.hs.getD n.sa []⟩
  rw [getD_set_ne _ _ _ _ _ (Nat.ne_of_lt hva),
    getD_append_lt _ _ _ _ hva]

theorem materialize_writeS_freshS {V : Type} (h : Heap V) (n : NodeRef)
    (y m : List (String × StateM V)) (hsa : n.sa < h.hs.length) :
    materialize (writeS ⟨h.hv, h.hs ++ [y]⟩ h.hs.length m) n
      = materialize h n := by
  show (⟨h.hv.getD n.va [],
      ((h.hs ++ [y]).set h.hs.length m).getD n.sa []⟩ : StateM V)
    = ⟨h.hv.getD n.va [], h.hs.getD n.sa []⟩
  rw [getD_set_ne _ _ _ _ _ (Nat.ne_of_lt hsa),
    getD_append_lt _ _ _ _ hsa]

theorem materialize_writeV_freshClone {V : Type} (h : Heap V) (n : NodeRef)
    (x : AList V) (y : List (String × StateM V)) (m : AList V)
    (hva : n.va < h.hv.length) (hsa : n.sa < h.hs.length) :
    materialize (writeV ⟨h.hv ++ [x], h.hs ++ [y]⟩ h.hv.length m) n
      = materialize h n := by
  show (⟨((h.hv ++ [x]).set h.hv.length m).getD n.va [],
      (h.hs ++ [y]).getD n.sa []⟩ : StateM V)
    = ⟨h.hv.getD n.va [], h.hs.getD n.sa []⟩
  rw [getD_set_ne _ _ _ _ _ (Nat.ne_of_lt hva),
    getD_append_lt _ _ _ _ hva, getD_append_lt _ _ _ _ hsa]

theorem materialize_writeS_freshClone {V : Type} (h : Heap V) (n : NodeRef)
    (x : AList V) (y : List (String × StateM V))
    (m : List (String × StateM V))
    (hva : n.va < h.hv.length) (hsa : n.sa < h.hs.length) :
    materialize (writeS ⟨h.hv ++ [x], h.hs ++ [y]⟩ h.hs.length m) n
      = materialize h n := by
  show (⟨(h.hv ++ [x]).getD n.va [],
      ((h.hs ++ [y]).set h.hs.length m).getD n.sa []⟩ : StateM V)
    = ⟨h.hv.getD n.va [], h.hs.getD n.sa []⟩
  rw [getD_set_ne _ _ _ _ _ (Nat.ne_of_lt hsa),
    getD_append_lt _ _ _ _ hva, getD_append_lt _ _ _ _ hsa]

/-- The builder clone denotes the same tree as the receiver: its two
fresh maps hold copies of the receiver's maps. -/
theorem materialize_cloneBuilderH {V : Type} (h : Heap V) (n : NodeRef) :
    materialize (cloneBuilderH h n).1 (cloneBuilderH h n).2
      = materialize h n := by
  show (⟨(h.hv ++ [readV h n.va]).getD h.hv.length [],
      (h.hs ++ [readS h n.sa]).getD h.hs.length []⟩ : StateM V)
    = materialize h n
  rw [getD_append_length, getD_append_length]
  rfl

theorem readV_cloneBuilderH {V : Type} (h : Heap V) (n : NodeRef) :
    readV (cloneBuilderH h n).1 (cloneBuilderH h n).2.va = readV h n.va :=
  getD_append_length _ _ _

theorem readS_cloneBuilderH {V : Type} (h : Heap V) (n : NodeRef) :
    readS (cloneBuilderH h n).1 (cloneBuilderH h n).2.sa = readS h n.sa :=
  getD_append_length _ _ _

/-- Heap-level `mappingValue` leaves the receiver untouched (all writes
hit the freshly allocated clone maps), returns a node at fresh addresses,
and its result denotes exactly the pure structural update. -/
theorem mappingValueH_spec {V : Type} (h : Heap V) (n : NodeRef)
    (fn : Option V → Option V) (p : List String) (hp : p ≠ [])
    (hdot : ∀ s ∈ p, '.' ∉ s.data)
    (hva : n.va < h.hv.length) (hsa : n.sa < h.hs.length) :
    materialize (mappingValueH h n p fn).1 n = materialize h n ∧
      (mappingValueH h n p fn).2.va ≠ n.va ∧
      (mappingValueH h n p fn).2.sa ≠ n.sa ∧
      materialize (mappingValueH h n p fn).1 (mappingValueH h n p fn).2
        = mappingValueSegs (materialize h n) p fn := by
  match p with
  | [] => exact absurd rfl hp
  | [k] =>
    have hk : splitPath k = [k] := splitPath_no_dot k (hdot k (by simp))
    have hread : valueAtNode
        (materialize (cloneBuilderH h n).1 (cloneBuilderH h n).2) k
        = alGet (materialize h n).values k := by
      rw [materialize_cloneBuilderH, valueAtNode, hk]
      rfl
    cases hfn : fn (alGet (materialize h n).values k) with
    | some v =>
      refine ⟨?_, Nat.ne_of_gt hva, Nat.ne_of_gt hsa, ?_⟩
      · show materialize (updateValueWithFunctionH (cloneBuilderH h n).1
            (cloneBuilderH h n).2 k fn) n = materialize h n
        rw [updateValueWithFunctionH, hread, hfn]
        rw [cloneBuilderH_eq]
        exact materialize_writeV_freshClone h n _ _ _ hva hsa
      · show materialize (updateValueWithFunctionH (cloneBuilderH h n).1
            (cloneBuilderH h n).2 k fn) (cloneBuilderH h n).2
          = mappingValueSegs (materialize h n) [k] fn
        rw [updateValueWithFunctionH, hread, hfn, readV_cloneBuilderH]
        show (⟨(((cloneBuilderH h n).1.hv).set (cloneBuilderH h n).2.va
              (alSet (readV h n.va) k v)).getD (cloneBuilderH h n).2.va [],
            ((cloneBuilderH h n).1.hs).getD (cloneBuilderH h n).2.sa []⟩
            : StateM V)
          = mappingValueSegs (materialize h n) [k] fn
        rw [getD_set_self _ _ _ _
          (by show (cloneBuilderH h n).2.va < (cloneBuilderH h n).1.hv.length
              rw [cloneBuilderH_eq]
              simp)]
        show (⟨alSet (readV h n.va) k v,
            (h.hs ++ [readS h n.sa]).getD h.hs.length []⟩ : StateM V)
          = mappingValueSegs (materialize h n) [k] fn
        rw [getD_append_length]
        show _ = mappingValueSegs ⟨readV h n.va, readS h n.sa⟩ [k] fn
        rw [mappingValueSegs]
        show _ = (match fn (alGet (readV h n.va) k) with
          | some v => (⟨alSet (readV h n.va) k v, readS h n.sa⟩ : StateM V)
          | none => ⟨alRemove (readV h n.va) k, readS h n.sa⟩)
        rw [show alGet (readV h n.va) k
            = alGet (materialize h n).values k from rfl, hfn]
    | none =>
      refine ⟨?_, Nat.ne_of_gt hva, Nat.ne_of_gt hsa, ?_⟩
      · show materialize (updateValueWithFunctionH (cloneBuilderH h n).1
            (cloneBuilderH h n).2 k fn) n = materialize h n
        rw [updateValueWithFunctionH, hread, hfn]
        rw [cloneBuilderH_eq]
        exact materialize_writeV_freshClone h n _ _ _ hva hsa
      · show materialize (updateValueWithFunctionH (cloneBuilderH h n).1
            (cloneBuilderH h n).2 k fn) (cloneBuilderH h n).2
          = mappingValueSegs (materialize h n) [k] fn
        rw [updateValueWithFunctionH, hread, hfn, readV_cloneBuilderH]
        show (⟨(((cloneBuilderH h n).1.hv).set (cloneBuilderH h n).2.va
              (alRemove (readV h n.va) k)).getD (cloneBuilderH h n).2.va [],
            ((cloneBuilderH h n).1.hs).getD (cloneBuilderH h n).2.sa []⟩
            : StateM V)
          = mappingValueSegs (materialize h n) [k] fn
        rw [getD_set_self _ _ _ _
          (by show (cloneBuilderH h n).2.va < (cloneBuilderH h n).1.hv.length
              rw [cloneBuilderH_eq]
              simp)]
        show (⟨alRemove (readV h n.va) k,
            (h.hs ++ [readS h n.sa]).getD h.hs.length []⟩ : StateM V)
          = mappingValueSegs (materialize h n) [k] fn
        rw [getD_append_length]
        show _ = mappingValueSegs ⟨readV h n.va, readS h n.sa⟩ [k] fn
        rw [mappingValueSegs]
        show _ = (match fn (alGet (readV h n.va) k) with
          | some v => (⟨alSet (readV h n.va) k v, readS h n.sa⟩ : StateM V)
          | none => ⟨alRemove (readV h n.va) k, readS h n.sa⟩)
        rw [show alGet (readV h n.va) k
            = alGet (materialize h n).values k from rfl, hfn]
  | k :: k2 :: rest =>
    refine ⟨?_, Nat.ne_of_gt hva, Nat.ne_of_gt hsa, ?_⟩
    · show materialize (updateSubstateH (cloneBuilderH h n).1
          (cloneBuilderH h n).2 k (some (mappingValueSegs
            ((alGet (readS h n.sa) k).getD emptyState) (k2 :: rest) fn))) n
        = materialize h n
      rw [updateSubstateH, cloneBuilderH_eq]
      exact materialize_writeS_freshClone h n _ _ _ hva hsa
    · show materialize (updateSubstateH (cloneBuilderH h n).1
          (cloneBuilderH h n).2 k (some (mappingValueSegs
            ((alGet (readS h n.sa) k).getD emptyState) (k2 :: rest) fn)))
          (cloneBuilderH h n).2
        = mappingValueSegs (materialize h n) (k :: k2 :: rest) fn
      rw [updateSubstateH, readS_cloneBuilderH]
      show (⟨((cloneBuilderH h n).1.hv).getD (cloneBuilderH h n).2.va [],
          (((cloneBuilderH h n).1.hs).set (cloneBuilderH h n).2.sa
            (alSet (readS h n.sa) k (mappingValueSegs
              ((alGet (readS h n.sa) k).getD emptyState) (k2 :: rest) fn)))
            |>.getD (cloneBuilderH h n).2.sa []⟩ : StateM V)
        = mappingValueSegs (materialize h n) (k :: k2 :: rest) fn
      rw [getD_set_self _ _ _ _
        (by show (cloneBuilderH h n).2.sa < (cloneBuilderH h n).1.hs.length
            rw [cloneBuilderH_eq]
            simp)]
      show (⟨(h.hv ++ [readV h n.va]).getD h.hv.length [],
          alSet (readS h n.sa) k (mappingValueSegs
            ((alGet (readS h n.sa) k).getD emptyState) (k2 :: rest) fn)⟩
          : StateM V)
        = mappingValueSegs (materialize h n) (k :: k2 :: rest) fn
      rw [getD_append_length]
      rfl

/-- **C3** — Every node's `values`/`substate` accessors return defensive
snapshots that do not alias the node's internal maps: the snapshot lives
at a fresh address with equal contents, and overwriting the snapshot's
contents in place (`m'` / `ss'` arbitrary) leaves the node's denotation —
hence the result of every subsequent read (`valueAtNode`,
`substateAtNode`, `flatten`) on the original node — unchanged.  Moreover
a structural operation (`mappingValue`, and with it `updatingValue` etc.)
writes only to the freshly allocated maps of its `cloneBuilder()` clone:
it returns a node at fresh addresses whose denotation is the pure
structural update, and the receiver's denotation is unchanged. -/
theorem immutability_defensive_snapshots {V : Type} (h : Heap V)
    (n : NodeRef) (m' : AList V) (ss' : List (String × StateM V))
    (path probe : String) (fn : Option V → Option V)
    (hva : n.va < h.hv.length) (hsa : n.sa < h.hs.length) :
    (valuesGetter h n).2 ≠ n.va ∧
      readV (valuesGetter h n).1 (valuesGetter h n).2 = readV h n.va ∧
      materialize (writeV (valuesGetter h n).1 (valuesGetter h n).2 m') n
        = materialize h n ∧
      valueAtNode
          (materialize (writeV (valuesGetter h n).1 (valuesGetter h n).2 m')
            n) probe
        = valueAtNode (materialize h n) probe ∧
      substateAtNode
          (materialize (writeV (valuesGetter h n).1 (valuesGetter h n).2 m')
            n) probe
        = substateAtNode (materialize h n) probe ∧
      flatten
          (materialize (writeV (valuesGetter h n).1 (valuesGetter h n).2 m')
            n)
        = flatten (materialize h n) ∧
      (substateGetter h n).2 ≠ n.sa ∧
      readS (substateGetter h n).1 (substateGetter h n).2 = readS h n.sa ∧
      materialize
          (writeS (substateGetter h n).1 (substateGetter h n).2 ss') n
        = materialize h n ∧
      materialize (mappingValueH h n (splitPath path) fn).1 n
        = materialize h n ∧
      (mappingValueH h n (splitPath path) fn).2.va ≠ n.va ∧
      (mappingValueH h n (splitPath path) fn).2.sa ≠ n.sa ∧
      materialize (mappingValueH h n (splitPath path) fn).1
          (mappingValueH h n (splitPath path) fn).2
        = mappingValueSegs (materialize h n) (splitPath path) fn := by
  have hsnapV : materialize
      (writeV (valuesGetter h n).1 (valuesGetter h n).2 m') n
      = materialize h n :=
    materialize_writeV_freshV h n _ _ hva
  have hop := mappingValueH_spec h n fn (splitPath path)
    (splitPath_ne_nil path) (splitPath_segment_no_dot path) hva hsa
  exact ⟨Nat.ne_of_gt hva, getD_append_length _ _ _, hsnapV,
    by rw [hsnapV], by rw [hsnapV], by rw [hsnapV],
    Nat.ne_of_gt hsa, getD_append_length _ _ _,
    materialize_writeS_freshS h n _ _ hsa,
    hop.1, hop.2.1, hop.2.2.1, hop.2.2.2⟩

/-- Witness for C3: a one-node heap whose node holds `{a: 1}` and no
substates; the snapshot is clobbered with `{hacked: 9}`, the substate
snapshot with a single child, and the structural operation writes `5` at
the fresh path `"x.y"`. -/
theorem immutability_defensive_snapshots_witness :
    (valuesGetter (⟨[[("a", 1)]], [[]]⟩ : Heap Nat) ⟨0, 0⟩).2 ≠ 0 ∧
      readV (valuesGetter (⟨[[("a", 1)]], [[]]⟩ : Heap Nat) ⟨0, 0⟩).1
          (valuesGetter (⟨[[("a", 1)]], [[]]⟩ : Heap Nat) ⟨0, 0⟩).2
        = readV (⟨[[("a", 1)]], [[]]⟩ : Heap Nat) 0 ∧
      materialize
          (writeV (valuesGetter (⟨[[("a", 1)]], [[]]⟩ : Heap Nat) ⟨0, 0⟩).1
            (valuesGetter (⟨[[("a", 1)]], [[]]⟩ : Heap Nat) ⟨0, 0⟩).2
            [("hacked", 9)]) ⟨0, 0⟩
        = materialize (⟨[[("a", 1)]], [[]]⟩ : Heap Nat) ⟨0, 0⟩ ∧
      valueAtNode
          (materialize
            (writeV (valuesGetter (⟨[[("a", 1)]], [[]]⟩ : Heap Nat) ⟨0, 0⟩).1
              (valuesGetter (⟨[[("a", 1)]], [[]]⟩ : Heap Nat) ⟨0, 0⟩).2
              [("hacked", 9)]) ⟨0, 0⟩) "a"
        = valueAtNode (materialize (⟨[[("a", 1)]], [[]]⟩ : Heap Nat) ⟨0, 0⟩)
            "a" ∧
      substateAtNode
          (materialize
            (writeV (valuesGetter (⟨[[("a", 1)]], [[]]⟩ : Heap Nat) ⟨0, 0⟩).1
              (valuesGetter (⟨[[("a", 1)]], [[]]⟩ : Heap Nat) ⟨0, 0⟩).2
              [("hacked", 9)]) ⟨0, 0⟩) "a"
        = substateAtNode
            (materialize (⟨[[("a", 1)]], [[]]⟩ : Heap Nat) ⟨0, 0⟩) "a" ∧
      flatten
          (materialize
            (writeV (valuesGetter (⟨[[("a", 1)]], [[]]⟩ : Heap Nat) ⟨0, 0⟩).1
              (valuesGetter (⟨[[("a", 1)]], [[]]⟩ : Heap Nat) ⟨0, 0⟩).2
              [("hacked", 9)]) ⟨0, 0⟩)
        = flatten (materialize (⟨[[("a", 1)]], [[]]⟩ : Heap Nat) ⟨0, 0⟩) ∧
      (substateGetter (⟨[[("a", 1)]], [[]]⟩ : Heap Nat) ⟨0, 0⟩).2 ≠ 0 ∧
      readS (substateGetter (⟨[[("a", 1)]], [[]]⟩ : Heap Nat) ⟨0, 0⟩).1
          (substateGetter (⟨[[("a", 1)]], [[]]⟩ : Heap Nat) ⟨0, 0⟩).2
        = readS (⟨[[("a", 1)]], [[]]⟩ : Heap Nat) 0 ∧
      materialize
          (writeS (substateGetter (⟨[[("a", 1)]], [[]]⟩ : Heap Nat) ⟨0, 0⟩).1
            (substateGetter (⟨[[("a", 1)]], [[]]⟩ : Heap Nat) ⟨0, 0⟩).2
            [("child", emptyState)]) ⟨0, 0⟩
        = materialize (⟨[[("a", 1)]], [[]]⟩ : Heap Nat) ⟨0, 0⟩ ∧
      materialize
          (mappingValueH (⟨[[("a", 1)]], [[]]⟩ : Heap Nat) ⟨0, 0⟩
            (splitPath "x.y") fun _ => some 5).1 ⟨0, 0⟩
        = materialize (⟨[[("a", 1)]], [[]]⟩ : Heap Nat) ⟨0, 0⟩ ∧
      (mappingValueH (⟨[[("a", 1)]], [[]]⟩ : Heap Nat) ⟨0, 0⟩
          (splitPath "x.y") fun _ => some 5).2.va ≠ 0 ∧
      (mappingValueH (⟨[[("a", 1)]], [[]]⟩ : Heap Nat) ⟨0, 0⟩
          (splitPath "x.y") fun _ => some 5).2.sa ≠ 0 ∧
      materialize
          (mappingValueH (⟨[[("a", 1)]], [[]]⟩ : Heap Nat) ⟨0, 0⟩
            (splitPath "x.y") fun _ => some 5).1
          (mappingValueH (⟨[[("a", 1)]], [[]]⟩ : Heap Nat) ⟨0, 0⟩
            (splitPath "x.y") fun _ => some 5).2
        = mappingValueSegs
            (materialize (⟨[[("a", 1)]], [[]]⟩ : Heap Nat) ⟨0, 0⟩)
            (splitPath "x.y") fun _ => some 5 :=
  immutability_defensive_snapshots (⟨[[("a", 1)]], [[]]⟩ : Heap Nat) ⟨0, 0⟩
    [("hacked", 9)] [("child", emptyState)] "x.y" "a" (fun _ => some 5)
    (by decide) (by decide)

/-- **C4** — fails on the code: the claim says that after `build()` any
further mutating Builder call throws an "illegal mutation" error rather
than touching the already-built node.  The `Builder` of `state+main.ts`
has no ownership or finalization state at all: `build()` is
`return this.state` and `updateValue`/`setValue` carry no check, so the
post-`build()` call succeeds (the model functions are total, as the
source methods have no throw path) and mutates in place the very node
`build()` returned.  Concretely: a fresh builder's node is empty, and
after `build()` followed by `updateValue("x", 1)` the built node reads
`{x: 1}`. -/
theorem builder_mutation_after_build_counterexample :
    buildH (BuilderH.mk ⟨0, 0⟩) = ⟨0, 0⟩ ∧
      materialize (⟨[[]], [[]]⟩ : Heap Nat) ⟨0, 0⟩ = emptyState ∧
      materialize
          (builderUpdateValueH (⟨[[]], [[]]⟩ : Heap Nat)
            (BuilderH.mk ⟨0, 0⟩) "x" (some 1)) (buildH (BuilderH.mk ⟨0, 0⟩))
        = ⟨[("x", 1)], []⟩ :=
  ⟨rfl, rfl, rfl⟩

/-- **C4 (amended)** — The `Builder` of `state+main.ts` performs no
ownership or finalization check: `build()` returns the builder's own node
without marking anything, every mutating method is total (no error is
thrown), and a mutating call issued after `build()` succeeds and mutates
the already-built node in place — builder and built node share the same
underlying state.  (A Builder's methods only ever address the node the
builder holds, so "mutating a non-owned target" cannot arise.) -/
theorem builder_mutation_after_build_amended {V : Type} (h : Heap V)
    (b : BuilderH) (k : String) (v : V)
    (hva : b.node.va < h.hv.length) :
    buildH b = b.node ∧
      materialize (builderUpdateValueH h b k (some v)) (buildH b)
        = ⟨alSet (materialize h b.node).values k v,
            (materialize h b.node).substate⟩ := by
  refine ⟨rfl, ?_⟩
  show (⟨(h.hv.set b.node.va
        (alSet (h.hv.getD b.node.va []) k v)).getD b.node.va [],
      h.hs.getD b.node.sa []⟩ : StateM V)
    = ⟨alSet (h.hv.getD b.node.va []) k v, h.hs.getD b.node.sa []⟩
  rw [getD_set_self _ _ _ _ hva]

/-- Witness for the amended C4: the one-node heap again; after `build()`
the builder's `updateValue("x", 1)` is visible through the built node. -/
theorem builder_mutation_after_build_amended_witness :
    buildH (BuilderH.mk ⟨0, 0⟩) = (⟨0, 0⟩ : NodeRef) ∧
      materialize
          (builderUpdateValueH (⟨[[]], [[]]⟩ : Heap Nat)
            (BuilderH.mk ⟨0, 0⟩) "x" (some 1)) (buildH (BuilderH.mk ⟨0, 0⟩))
        = ⟨alSet (materialize (⟨[[]], [[]]⟩ : Heap Nat) ⟨0, 0⟩).values "x" 1,
            (materialize (⟨[[]], [[]]⟩ : Heap Nat) ⟨0, 0⟩).substate⟩ :=
  builder_mutation_after_build_amended (⟨[[]], [[]]⟩ : Heap Nat)
    (BuilderH.mk ⟨0, 0⟩) "x" 1 (by decide)

end TypeSafeState
